import Mathlib

/-!
Shallow embedding of the `tcpteardown-experiments` client/server
(`src/main.rs`, `src/maybe_buffered.rs`).

The wire protocol is a stream of 4-byte big-endian u32 frames; the server scans
frames until the first odd value, echoes that frame, then tears the connection
down according to a configured `TeardownMode`.  The client concurrently writes
a long stream of even values (with the single odd value 23 injected at the
midpoint of the iteration range) while a spawned reader thread waits for the
4-byte response and then sets a one-shot stop flag.

I/O is embedded explicitly: a TCP read side is the list of bytes it will
deliver, OS-level read/write granularity is an oracle parameter (`sched`,
chunk lists, accepted write counts), and fallible operations return `Option` /
`Except`.
-/

namespace TcpTeardown

/-- Subset of `std::io::ErrorKind` used to categorize I/O failures. -/
inductive ErrKind where
  | connectionRefused
  | connectionReset
  | brokenPipe
  | unexpectedEof
  | wouldBlock
  | timedOut
  | otherKind
deriving DecidableEq, Repr

/-- `BigEndian::read_u32(&buf[..])` (bytes crate): big-endian decode of the
first four bytes of the buffer. -/
def readU32BE : List Nat → Nat
  | b0 :: b1 :: b2 :: b3 :: _ => ((b0 * 256 + b1) * 256 + b2) * 256 + b3
  | _ => 0

/-- `BigEndian::write_u32(&mut buf, n)`: big-endian encode of a u32 as 4 bytes. -/
def writeU32BE (n : Nat) : List Nat :=
  [n / 16777216 % 256, n / 65536 % 256, n / 256 % 256, n % 256]

theorem writeU32BE_length (n : Nat) : (writeU32BE n).length = 4 := rfl

theorem readU32BE_writeU32BE (n : Nat) (h : n < 4294967296) :
    readU32BE (writeU32BE n) = n := by
  simp only [readU32BE, writeU32BE]
  omega

/-- Byte payload of a list of u32 frames: the concatenation of their 4-byte
big-endian encodings. -/
def framesBytes (nums : List Nat) : List Nat := (nums.map writeU32BE).flatten

theorem framesBytes_cons (n : Nat) (nums : List Nat) :
    framesBytes (n :: nums) = writeU32BE n ++ framesBytes nums := by
  simp [framesBytes]

theorem framesBytes_singleton (n : Nat) : framesBytes [n] = writeU32BE n := by
  simp [framesBytes]

/-- State of a `BufReader<TcpStream>` (the server's or client's read half in
the `--buffered` configuration): `buf` holds bytes already pulled from the
socket but not yet consumed by the application, `raw` holds the bytes still
pending on the socket. -/
structure BRState where
  buf : List Nat
  raw : List Nat
deriving DecidableEq, Repr

/-- `Read::read_exact(n)` against a `BufReader`: bytes are served from the
internal buffer; when the buffer is empty a fill pulls the next chunk from the
socket.  `sched i` is the size the OS grants to the i-th socket read (clamped
to at least one byte, since a blocking read on a non-EOF stream delivers at
least one byte); `si` is the current socket-read index.  Returns the bytes
delivered, the reader state afterwards, and the next socket-read index;
`none` models EOF before `n` bytes (read_exact then errors). -/
def readExactBuffered (n : Nat) (s : BRState) (sched : Nat → Nat) (si : Nat) :
    Option (List Nat × BRState × Nat) :=
  match n, s with
  | 0, s => some ([], s, si)
  | n+1, ⟨b :: bs, raw⟩ =>
    (readExactBuffered n ⟨bs, raw⟩ sched si).map fun r => (b :: r.1, r.2.1, r.2.2)
  | _+1, ⟨[], []⟩ => none
  | n+1, ⟨[], r0 :: rr⟩ =>
    let k := max (sched si) 1
    (readExactBuffered n ⟨((r0 :: rr).take k).tail, (r0 :: rr).drop k⟩ sched (si+1)).map
      fun r => (r0 :: r.1, r.2.1, r.2.2)

/-- `Read::read_exact(n)` directly against the raw `TcpStream` (unbuffered
configuration): delivers exactly the next `n` pending bytes, or fails if the
stream ends first. -/
def readExactRaw (n : Nat) (raw : List Nat) : Option (List Nat × List Nat) :=
  if n ≤ raw.length then some (raw.take n, raw.drop n) else none

/-- Conservation of bytes through the buffered reader: `read_exact n` delivers
exactly the next `n` bytes of `buf ++ raw`, and the bytes remaining in the
reader (buffered plus pending) are exactly the rest. -/
theorem readExactBuffered_spec (sched : Nat → Nat) :
    ∀ (n : Nat) (s : BRState) (si : Nat), n ≤ (s.buf ++ s.raw).length →
      ∃ s2 si2, readExactBuffered n s sched si = some ((s.buf ++ s.raw).take n, s2, si2) ∧
        s2.buf ++ s2.raw = (s.buf ++ s.raw).drop n := by
  intro n
  induction n with
  | zero =>
    intro s si _
    exact ⟨s, si, rfl, by simp⟩
  | succ n ih =>
    intro s si hlen
    match s with
    | ⟨b :: bs, raw⟩ =>
      obtain ⟨s2, si2, heq, hrest⟩ := ih ⟨bs, raw⟩ si (by simpa using Nat.le_of_succ_le_succ hlen)
      exact ⟨s2, si2, by simp [readExactBuffered, heq], by simpa using hrest⟩
    | ⟨[], []⟩ => simp at hlen
    | ⟨[], r0 :: rr⟩ =>
      obtain ⟨k', hk'⟩ : ∃ k', max (sched si) 1 = k' + 1 :=
        ⟨max (sched si) 1 - 1, by omega⟩
      have hcomb : ((r0 :: rr).take (max (sched si) 1)).tail ++
          (r0 :: rr).drop (max (sched si) 1) = rr := by
        rw [hk', List.take_succ_cons, List.tail_cons, List.drop_succ_cons,
          List.take_append_drop]
      have hlen2 : n ≤ (((r0 :: rr).take (max (sched si) 1)).tail ++
          (r0 :: rr).drop (max (sched si) 1)).length := by
        rw [hcomb]; simpa using Nat.le_of_succ_le_succ hlen
      obtain ⟨s2, si2, heq, hrest⟩ :=
        ih ⟨((r0 :: rr).take (max (sched si) 1)).tail,
          (r0 :: rr).drop (max (sched si) 1)⟩ (si + 1) hlen2
      refine ⟨s2, si2, ?_, ?_⟩
      · simp only [readExactBuffered, heq, Option.map_some']
        simp only [BRState.buf, BRState.raw] at heq ⊢
        congr 2
        rw [hcomb]
        rfl
      · simp only [BRState.buf, BRState.raw] at hrest
        rw [hrest, hcomb]
        rfl

/-- `TeardownMode` (main.rs 60-69). -/
inductive TeardownMode where
  | CloseImmediately
  | DrainThenClose
  | ShutdownWriteThenDrain
  | ShutdownWriteThenClose
  | SleepThenClose
  | ShutdownBothThenClose
deriving DecidableEq, Repr

/-- Which arms of the teardown dispatch in `Server::handle_conn`
(main.rs 144-181) invoke `Server::drain`. -/
def teardownDrains : TeardownMode → Bool
  | .DrainThenClose => true
  | .ShutdownWriteThenDrain => true
  | _ => false

/-- `MaybeBufferedReader` (maybe_buffered.rs 56-59): the read half of the
connection, either the raw socket (its pending bytes) or a `BufReader`
around it (buffered bytes plus pending bytes). -/
inductive MaybeBufferedReader where
  | Unbuffered (s : List Nat)
  | Buffered (st : BRState)
deriving DecidableEq, Repr

/-- `MaybeBufferedReader::unbuffered` (maybe_buffered.rs 61-68):
`BufReader::into_inner` returns the underlying socket and drops the internal
buffer, so in the buffered case the buffered bytes `st.buf` are discarded and
only the pending socket bytes remain observable.  Total: it cannot fail. -/
def MaybeBufferedReader.unbuffered : MaybeBufferedReader → List Nat
  | .Unbuffered s => s
  | .Buffered st => st.raw

/-- `MaybeBufferedWriter` (maybe_buffered.rs 23-26): the write half, either
the raw socket (`written` = bytes already on the wire) or a `BufWriter`
(`pending` = bytes in the buffer, not yet flushed to the wire). -/
inductive MaybeBufferedWriter where
  | Unbuffered (written : List Nat)
  | Buffered (pending : List Nat) (written : List Nat)
deriving DecidableEq, Repr

/-- `MaybeBufferedWriter::unbuffered` (maybe_buffered.rs 28-35):
`BufWriter::into_inner` flushes the pending bytes first and can therefore
fail; `flushRes` is the result of that flush syscall (ignored in the
unbuffered case, where no flush happens). -/
def MaybeBufferedWriter.unbuffered :
    MaybeBufferedWriter → Option ErrKind → Except ErrKind (List Nat)
  | .Unbuffered w, _ => .ok w
  | .Buffered p w, none => .ok (w ++ p)
  | .Buffered _ _, some e => .error e

namespace Server

/-- The scanning/echo loop of `Server::handle_conn` (main.rs 128-141),
buffered configuration: repeatedly `read_exact` a 4-byte frame, decode it
big-endian, discard even values, and stop at the first odd value, returning
the 4-byte buffer that is then passed to the echoing write call together with
the reader state at that point (which `read.unbuffered()` then converts).
`fuel` bounds the number of loop iterations examined; `none` means the loop
did not return an odd frame within `fuel` iterations (or a read failed). -/
def handleConnScanB : Nat → BRState → (Nat → Nat) → Nat →
    Option (List Nat × BRState × Nat)
  | 0, _, _, _ => none
  | fuel+1, s, sched, si =>
    match readExactBuffered 4 s sched si with
    | none => none
    | some (bytes, s2, si2) =>
      if readU32BE bytes % 2 = 0 then handleConnScanB fuel s2 sched si2
      else some (bytes, s2, si2)

/-- The same scanning/echo loop in the unbuffered configuration: frames are
read with `read_exact` directly against the raw socket. -/
def handleConnScanU : Nat → List Nat → Option (List Nat × List Nat)
  | 0, _ => none
  | fuel+1, raw =>
    match readExactRaw 4 raw with
    | none => none
    | some (bytes, raw2) =>
      if readU32BE bytes % 2 = 0 then handleConnScanU fuel raw2
      else some (bytes, raw2)

/-- The single echoing write call `write.write(&buf[..])` (main.rs 141):
`Write::write` transmits some prefix of the buffer and returns how many bytes
it accepted; the source ignores that count.  `n` is the number of bytes the
OS accepts on this call. -/
def echoWrite (buf : List Nat) (n : Nat) : List Nat := buf.take n

/-- One OS-level read observed by `Server::drain`: either a successful read
delivering `data` (`data = []` is `Ok(0)`, i.e. EOF) or an I/O error. -/
inductive ReadEvent where
  | chunk (data : List Nat)
  | readErr (e : ErrKind)
deriving DecidableEq, Repr

/-- `Server::drain` (main.rs 193-206): read and discard until EOF, summing
the byte counts; `Ok(0)` returns the accumulated count, an error is returned
as-is.  `acc` is the running `bytecount`; `none` means the event list was
exhausted with the loop still running (the next read would block). -/
def drain : List ReadEvent → Nat → Option (Except ErrKind Nat)
  | [], _ => none
  | .chunk [] :: _, acc => some (.ok acc)
  | .chunk (b :: c) :: rest, acc => drain rest (acc + (b :: c).length)
  | .readErr e :: _, _ => some (.error e)

/-- Byte count carried by one read event. -/
def eventLen : ReadEvent → Nat
  | .chunk c => c.length
  | .readErr _ => 0

end Server

theorem take4_frame (n : Nat) (rest : List Nat) :
    (writeU32BE n ++ rest).take 4 = writeU32BE n := rfl

theorem drop4_frame (n : Nat) (rest : List Nat) :
    (writeU32BE n ++ rest).drop 4 = rest := rfl

theorem readExactRaw_frame (n : Nat) (rest : List Nat) :
    readExactRaw 4 (writeU32BE n ++ rest) = some (writeU32BE n, rest) := by
  have h : 4 ≤ (writeU32BE n ++ rest).length := by
    simp [writeU32BE]
  rw [readExactRaw, if_pos h, take4_frame, drop4_frame]

/-- Draining a prefix of successful, non-EOF reads accumulates their byte
counts and continues with the rest of the events. -/
theorem drain_append (pre : List Server.ReadEvent) :
    ∀ (acc : Nat) (rest : List Server.ReadEvent),
      (∀ ev ∈ pre, ∃ b c, ev = Server.ReadEvent.chunk (b :: c)) →
      Server.drain (pre ++ rest) acc =
        Server.drain rest (acc + (pre.map Server.eventLen).sum) := by
  induction pre with
  | nil => intro acc rest _; simp
  | cons ev pre ih =>
    intro acc rest hpre
    obtain ⟨b, c, hev⟩ := hpre ev (List.mem_cons_self ev pre)
    subst hev
    rw [List.cons_append, Server.drain, ih _ rest fun x hx => hpre x (List.mem_cons_of_mem _ hx)]
    congr 1
    simp [Server.eventLen]
    omega

/-- Draining a list of non-empty chunks terminated by EOF reports exactly the
total number of bytes in the chunks (on top of the accumulator). -/
theorem drain_chunks (cs : List (List Nat)) :
    ∀ acc : Nat, (∀ c ∈ cs, c ≠ []) →
      Server.drain (cs.map Server.ReadEvent.chunk ++ [Server.ReadEvent.chunk []]) acc
        = some (.ok (acc + cs.flatten.length)) := by
  induction cs with
  | nil => intro acc _; simp [Server.drain]
  | cons c cs ih =>
    intro acc hcs
    match c, hcs c (List.mem_cons_self c cs) with
    | b :: c', _ =>
      rw [List.map_cons, List.cons_append, Server.drain,
        ih _ fun x hx => hcs x (List.mem_cons_of_mem _ hx)]
      congr 2
      simp
      omega

/-- Unfolding step of the unbuffered scan loop once the frame read result is
known. -/
theorem handleConnScanU_step (fuel : Nat) (raw bytes raw2 : List Nat)
    (h : readExactRaw 4 raw = some (bytes, raw2)) :
    Server.handleConnScanU (fuel + 1) raw =
      if readU32BE bytes % 2 = 0 then Server.handleConnScanU fuel raw2
      else some (bytes, raw2) := by
  simp only [Server.handleConnScanU, h]

/-- Unfolding step of the buffered scan loop once the frame read result is
known. -/
theorem handleConnScanB_step (fuel : Nat) (s : BRState) (sched : Nat → Nat) (si : Nat)
    (bytes : List Nat) (s2 : BRState) (si2 : Nat)
    (h : readExactBuffered 4 s sched si = some (bytes, s2, si2)) :
    Server.handleConnScanB (fuel + 1) s sched si =
      if readU32BE bytes % 2 = 0 then Server.handleConnScanB fuel s2 sched si2
      else some (bytes, s2, si2) := by
  simp only [Server.handleConnScanB, h]

/-- Parity of a decoded even frame. -/
theorem readU32BE_writeU32BE_even (e : Nat) (he : e % 2 = 0) :
    readU32BE (writeU32BE e) % 2 = 0 := by
  simp only [readU32BE, writeU32BE]
  omega

/-- Scanning (unbuffered): the handler discards every even frame and stops at
the first odd frame, whose raw 4 bytes (its big-endian encoding) are returned
for echoing, with the rest of the stream untouched. -/
theorem handleConnScanU_spec (evens : List Nat) (oddv : Nat) :
    ∀ rest : List Nat,
      (∀ x ∈ evens, x % 2 = 0) → oddv < 4294967296 → oddv % 2 = 1 →
      Server.handleConnScanU (evens.length + 1) (framesBytes (evens ++ [oddv]) ++ rest)
        = some (writeU32BE oddv, rest) := by
  induction evens with
  | nil =>
    intro rest _ ho hop
    rw [List.nil_append, framesBytes_singleton,
      handleConnScanU_step _ _ _ _ (readExactRaw_frame oddv rest),
      readU32BE_writeU32BE oddv ho, if_neg (by omega)]
  | cons e es ih =>
    intro rest hev ho hop
    have he : readU32BE (writeU32BE e) % 2 = 0 :=
      readU32BE_writeU32BE_even e (hev e (List.mem_cons_self e es))
    rw [List.cons_append, framesBytes_cons, List.append_assoc, List.length_cons,
      handleConnScanU_step _ _ _ _ (readExactRaw_frame e _), if_pos he]
    exact ih rest (fun x hx => hev x (List.mem_cons_of_mem _ hx)) ho hop

/-- Scanning (buffered): same as the unbuffered case, and in addition the
reader state at the moment the odd frame is found holds no bytes at all when
the pre-echo stream ends with the odd frame: the internal buffer is empty (so
the `into_inner` conversion discards nothing) and the socket has no pending
pre-echo bytes. -/
theorem handleConnScanB_spec (sched : Nat → Nat) :
    ∀ (evens : List Nat) (oddv : Nat) (s : BRState) (si : Nat),
      (∀ x ∈ evens, x % 2 = 0) → oddv < 4294967296 → oddv % 2 = 1 →
      s.buf ++ s.raw = framesBytes (evens ++ [oddv]) →
      ∃ si2, Server.handleConnScanB (evens.length + 1) s sched si
        = some (writeU32BE oddv, ⟨[], []⟩, si2) := by
  intro evens
  induction evens with
  | nil =>
    intro oddv s si _ ho hop hcomb
    rw [List.nil_append, framesBytes_singleton] at hcomb
    obtain ⟨s2, si2, heq, hrest⟩ := readExactBuffered_spec sched 4 s si
      (by rw [hcomb]; simp [writeU32BE])
    rw [hcomb] at heq hrest
    have htake : (writeU32BE oddv).take 4 = writeU32BE oddv := rfl
    have hdrop : (writeU32BE oddv).drop 4 = ([] : List Nat) := rfl
    rw [htake] at heq
    rw [hdrop] at hrest
    obtain ⟨hb, hr⟩ := List.append_eq_nil.mp hrest
    have hs2 : s2 = ⟨[], []⟩ := by
      cases s2; simp_all
    refine ⟨si2, ?_⟩
    rw [handleConnScanB_step _ _ _ _ _ _ _ heq,
      readU32BE_writeU32BE oddv ho, if_neg (by omega), hs2]
  | cons e es ih =>
    intro oddv s si hev ho hop hcomb
    rw [List.cons_append, framesBytes_cons] at hcomb
    obtain ⟨s2, si2, heq, hrest⟩ := readExactBuffered_spec sched 4 s si
      (by rw [hcomb]; simp [writeU32BE])
    rw [hcomb, take4_frame] at heq
    rw [hcomb, drop4_frame] at hrest
    have he : readU32BE (writeU32BE e) % 2 = 0 :=
      readU32BE_writeU32BE_even e (hev e (List.mem_cons_self e es))
    obtain ⟨si3, hscan⟩ := ih oddv s2 si2 (fun x hx => hev x (List.mem_cons_of_mem _ hx))
      ho hop hrest
    refine ⟨si3, ?_⟩
    rw [List.length_cons, handleConnScanB_step _ _ _ _ _ _ _ heq, if_pos he, hscan]

/-- C9: `Server::drain` returns success carrying the accumulated byte count
exactly when a read returns zero bytes (ordinary peer-initiated end of
stream); any other read error is returned as the connection-level failure,
never converted into a success; and with no terminating event it is still
draining (no result is fabricated). -/
theorem drain_eof_success_error_propagation (pre : List Server.ReadEvent) (acc : Nat)
    (hpre : ∀ ev ∈ pre, ∃ b c, ev = Server.ReadEvent.chunk (b :: c)) :
    (∀ rest, Server.drain (pre ++ Server.ReadEvent.chunk [] :: rest) acc
        = some (.ok (acc + (pre.map Server.eventLen).sum)))
    ∧ (∀ e rest, Server.drain (pre ++ Server.ReadEvent.readErr e :: rest) acc
        = some (.error e))
    ∧ (∀ e rest n, Server.drain (pre ++ Server.ReadEvent.readErr e :: rest) acc
        ≠ some (.ok n))
    ∧ Server.drain pre acc = none := by
  refine ⟨?_, ?_, ?_, ?_⟩
  · intro rest
    rw [drain_append pre acc _ hpre, Server.drain]
  · intro e rest
    rw [drain_append pre acc _ hpre, Server.drain]
  · intro e rest n
    rw [drain_append pre acc _ hpre, Server.drain]
    simp
  · have h := drain_append pre acc [] hpre
    rw [List.append_nil] at h
    rw [h, Server.drain]

/-- Witness for C9 at a concrete event list: one 1-byte read then EOF gives
`Ok 1`, one 1-byte read then a reset gives that error. -/
theorem drain_eof_success_error_propagation_witness :
    Server.drain [Server.ReadEvent.chunk [7], Server.ReadEvent.chunk []] 0
      = some (.ok 1)
    ∧ Server.drain [Server.ReadEvent.chunk [7],
        Server.ReadEvent.readErr ErrKind.connectionReset] 0
      = some (.error ErrKind.connectionReset) := by
  have h := drain_eof_success_error_propagation [Server.ReadEvent.chunk [7]] 0
    (by intro ev hev; simp at hev; exact ⟨7, [], hev⟩)
  exact ⟨by simpa using h.1 [], by simpa using h.2.1 ErrKind.connectionReset []⟩

/-- Whatever the unbuffered scan loop returns for echoing decodes to an odd
value: the handler never echoes an even value. -/
theorem handleConnScanU_result_odd :
    ∀ (fuel : Nat) (raw bytes raw2 : List Nat),
      Server.handleConnScanU fuel raw = some (bytes, raw2) →
      readU32BE bytes % 2 = 1 := by
  intro fuel
  induction fuel with
  | zero =>
    intro raw bytes raw2 h
    simp [Server.handleConnScanU] at h
  | succ fuel ih =>
    intro raw bytes raw2 h
    rcases hr : readExactRaw 4 raw with _ | ⟨bytes0, raw0⟩
    · simp only [Server.handleConnScanU, hr] at h
      exact absurd h (by simp)
    · simp only [Server.handleConnScanU, hr] at h
      by_cases hp : readU32BE bytes0 % 2 = 0
      · rw [if_pos hp] at h
        exact ih raw0 bytes raw2 h
      · rw [if_neg hp] at h
        simp only [Option.some.injEq, Prod.mk.injEq] at h
        obtain ⟨h1, _⟩ := h
        subst h1
        omega

/-- C2: in the `DrainThenClose` and `ShutdownWriteThenDrain` modes (the two
arms that call `Server::drain`), for a run in which the peer sends a stream of
even frames, then the terminating odd frame, then — only after receiving the
echo — `postEcho` further bytes before closing its write side: scanning
consumes exactly the pre-echo payload in both configurations; in the buffered
configuration the reader state at conversion time is completely empty (buffer
and pending bytes), so `MaybeBufferedReader::unbuffered` discards nothing and
the raw stream seen by `Server::drain` carries exactly the post-echo bytes;
drain then reports exactly their number, however the OS chunks them. -/
theorem drainModes_report_exact_postEcho_bytes
    (mode : TeardownMode) (_hmode : teardownDrains mode = true)
    (evens : List Nat) (oddv : Nat) (sched : Nat → Nat) (si : Nat)
    (cs : List (List Nat)) (postEcho : List Nat)
    (hev : ∀ x ∈ evens, x % 2 = 0) (ho : oddv < 4294967296) (hop : oddv % 2 = 1)
    (hcs : ∀ c ∈ cs, c ≠ []) (hflat : cs.flatten = postEcho) :
    (∃ si2, Server.handleConnScanB (evens.length + 1)
        ⟨[], framesBytes (evens ++ [oddv])⟩ sched si
        = some (writeU32BE oddv, ⟨[], []⟩, si2))
    ∧ MaybeBufferedReader.unbuffered (.Buffered ⟨[], []⟩) = []
    ∧ Server.handleConnScanU (evens.length + 1) (framesBytes (evens ++ [oddv]))
        = some (writeU32BE oddv, [])
    ∧ Server.drain (cs.map Server.ReadEvent.chunk ++ [Server.ReadEvent.chunk []]) 0
        = some (.ok postEcho.length) := by
  refine ⟨?_, rfl, ?_, ?_⟩
  · exact handleConnScanB_spec sched evens oddv ⟨[], framesBytes (evens ++ [oddv])⟩ si
      hev ho hop (by simp)
  · have h := handleConnScanU_spec evens oddv [] hev ho hop
    simpa using h
  · rw [drain_chunks cs 0 hcs, hflat, Nat.zero_add]

/-- Witness for C2: pre-echo frames (2, 23), a fill schedule of one byte per
socket read, and post-echo bytes [5, 6] delivered as one chunk. -/
theorem drainModes_report_exact_postEcho_bytes_witness :
    (∃ si2, Server.handleConnScanB (List.length [2] + 1)
        ⟨[], framesBytes ([2] ++ [23])⟩ (fun _ => 1) 0
        = some (writeU32BE 23, ⟨[], []⟩, si2))
    ∧ MaybeBufferedReader.unbuffered (.Buffered ⟨[], []⟩) = []
    ∧ Server.handleConnScanU (List.length [2] + 1) (framesBytes ([2] ++ [23]))
        = some (writeU32BE 23, [])
    ∧ Server.drain ([[5, 6]].map Server.ReadEvent.chunk ++ [Server.ReadEvent.chunk []]) 0
        = some (.ok (List.length [5, 6])) :=
  drainModes_report_exact_postEcho_bytes TeardownMode.DrainThenClose rfl [2] 23
    (fun _ => 1) 0 [[5, 6]] [5, 6] (by decide) (by decide) (by decide) (by decide) rfl

/-- C3 counterexample: with input frames (2, 23) the scan loop hands the
4-byte buffer encoding 23 to the single write call, but `write.write(&buf[..])`
(main.rs 141) has its accepted-byte count ignored, so if the OS accepts only
2 of the 4 bytes the transmitted response frame is 2 bytes, not the full
4-byte encoding of the odd value: the claim that the handler sends all 4
bytes, no fewer, is not guaranteed by the code. -/
theorem echo_short_write_counterexample :
    Server.handleConnScanU 2 (framesBytes [2, 23]) = some (writeU32BE 23, [])
    ∧ Server.echoWrite (writeU32BE 23) 2 ≠ writeU32BE 23
    ∧ (Server.echoWrite (writeU32BE 23) 2).length = 2 := by
  refine ⟨by decide, by decide, by decide⟩

/-- C3 amended: the handler discards every even frame; the 4-byte buffer it
passes to its single echoing write call is exactly the big-endian encoding of
the first odd value; the transmitted response is the prefix of that buffer
the write call accepts (the returned count is unchecked), equal to the full
encoding exactly when all 4 bytes are accepted; and the handler never echoes
an even value. -/
theorem scan_echoes_first_odd_encoding (evens : List Nat) (oddv : Nat) (n : Nat)
    (hev : ∀ x ∈ evens, x % 2 = 0) (ho : oddv < 4294967296) (hop : oddv % 2 = 1) :
    Server.handleConnScanU (evens.length + 1) (framesBytes (evens ++ [oddv]))
      = some (writeU32BE oddv, [])
    ∧ Server.echoWrite (writeU32BE oddv) n = (writeU32BE oddv).take n
    ∧ Server.echoWrite (writeU32BE oddv) 4 = writeU32BE oddv
    ∧ (∀ fuel raw bytes raw2,
        Server.handleConnScanU fuel raw = some (bytes, raw2) →
        readU32BE bytes % 2 = 1) := by
  refine ⟨?_, rfl, rfl, handleConnScanU_result_odd⟩
  have h := handleConnScanU_spec evens oddv [] hev ho hop
  simpa using h

/-- Witness for the amended C3 at pre-echo frames (4, 7) with the write
accepting all 4 bytes. -/
theorem scan_echoes_first_odd_encoding_witness :
    Server.handleConnScanU (List.length [4] + 1) (framesBytes ([4] ++ [7]))
      = some (writeU32BE 7, [])
    ∧ Server.echoWrite (writeU32BE 7) 4 = (writeU32BE 7).take 4
    ∧ Server.echoWrite (writeU32BE 7) 4 = writeU32BE 7
    ∧ (∀ fuel raw bytes raw2,
        Server.handleConnScanU fuel raw = some (bytes, raw2) →
        readU32BE bytes % 2 = 1) :=
  scan_echoes_first_odd_encoding [4] 7 4 (by decide) (by decide) (by decide)

/-- C10: the reader-side conversion `MaybeBufferedReader::unbuffered` always
returns the underlying socket, silently discarding any buffered-but-unconsumed
bytes (the result does not depend on the buffer contents, so those bytes are
unobservable through it), and it is total (it cannot fail); the writer-side
conversion, by contrast, flushes and can fail with the flush error. -/
theorem maybeBufferedReader_unbuffered_discards :
    (∀ st : BRState, MaybeBufferedReader.unbuffered (.Buffered st) = st.raw)
    ∧ (∀ (buf buf2 raw : List Nat),
        MaybeBufferedReader.unbuffered (.Buffered ⟨buf, raw⟩)
          = MaybeBufferedReader.unbuffered (.Buffered ⟨buf2, raw⟩))
    ∧ (∀ s : List Nat, MaybeBufferedReader.unbuffered (.Unbuffered s) = s)
    ∧ (∀ p w : List Nat,
        MaybeBufferedWriter.unbuffered (.Buffered p w) none = .ok (w ++ p))
    ∧ (∀ (p w : List Nat) (e : ErrKind),
        MaybeBufferedWriter.unbuffered (.Buffered p w) (some e) = .error e)
    ∧ (∀ (w : List Nat) (fr : Option ErrKind),
        MaybeBufferedWriter.unbuffered (.Unbuffered w) fr = .ok w) :=
  ⟨fun _ => rfl, fun _ _ _ => rfl, fun _ => rfl, fun _ _ => rfl,
    fun _ _ _ => rfl, fun _ _ => rfl⟩

/-- One iteration of the server's accept loop (main.rs 104-117): either the
accept itself fails, or a connection is accepted and then `set_linger` and
`Server::handle_conn` each either succeed or fail.  `lingerRes` is the result
of `conn.set_linger(..)` (line 111), `handleRes` the result of
`self.handle_conn(..)` (line 113). -/
inductive ConnEvent where
  | acceptErr (e : ErrKind)
  | acceptOk (lingerRes : Option ErrKind) (handleRes : Except ErrKind Unit)

/-- `Server::run` (main.rs 100-118) over a finite prefix of accept-loop
iterations.  An accept error is logged and the loop continues; the `?` on
`set_linger` (line 111) and on `handle_conn` (line 113) propagates those
errors out of `run`, ending the loop.  `Except.ok n` means all listed
iterations were processed (the loop would keep accepting), with `n` the
number of connections handled to completion. -/
def Server.run : List ConnEvent → Except ErrKind Nat
  | [] => .ok 0
  | .acceptErr _ :: rest => Server.run rest
  | .acceptOk (some e) _ :: _ => .error e
  | .acceptOk none (.error e) :: _ => .error e
  | .acceptOk none (.ok ()) :: rest => (Server.run rest).map fun n => n + 1

/-- C1 counterexample: a connection whose handling fails (here during
scanning/echoing/teardown, surfaced as `handle_conn` returning an error) does
not leave the accept loop running: `Server::run` returns that error, and the
following connection is never handled (the claim would require the result
`Except.ok 1` of handling only the second connection). -/
theorem serverRun_fail_terminates_counterexample :
    Server.run [ConnEvent.acceptOk none (.error ErrKind.brokenPipe),
        ConnEvent.acceptOk none (.ok ())]
      = .error ErrKind.brokenPipe
    ∧ Server.run [ConnEvent.acceptOk none (.error ErrKind.brokenPipe),
        ConnEvent.acceptOk none (.ok ())]
      ≠ .ok 1 := by
  refine ⟨rfl, fun h => ?_⟩
  simp [Server.run] at h

/-- C1 amended: only accept errors are logged-and-skipped; a per-connection
`set_linger` or `handle_conn` failure (read/write/shutdown/drain failures
during scanning, echoing or teardown all surface as the latter) propagates
out of `Server::run` via `?`, terminating the server's run with that error
instead of accepting the next connection; a successfully handled connection
lets the loop continue. -/
theorem serverRun_error_propagation :
    (∀ (e : ErrKind) (rest : List ConnEvent),
        Server.run (ConnEvent.acceptErr e :: rest) = Server.run rest)
    ∧ (∀ (e : ErrKind) (hr : Except ErrKind Unit) (rest : List ConnEvent),
        Server.run (ConnEvent.acceptOk (some e) hr :: rest) = .error e)
    ∧ (∀ (e : ErrKind) (rest : List ConnEvent),
        Server.run (ConnEvent.acceptOk none (.error e) :: rest) = .error e)
    ∧ (∀ rest : List ConnEvent,
        Server.run (ConnEvent.acceptOk none (.ok ()) :: rest)
          = (Server.run rest).map fun n => n + 1) :=
  ⟨fun _ _ => rfl, fun _ _ _ => rfl, fun _ _ => rfl, fun _ => rfl⟩

/-- `SingleRunResult` (main.rs 209-218). -/
inductive SingleRunResult where
  | ResponseCorrect
  | ReadResponseError (kind : ErrKind)
  | WriteNumberError (kind : ErrKind)
  | BothErr (read : ErrKind) (write : ErrKind)
deriving DecidableEq, Repr

namespace Client

/-- The outcome classification at the end of `Client::single_run`
(main.rs 306-314), from the reader thread's error (if any) and the sender
loop's remembered write error (if any). -/
def classify : Option ErrKind → Option ErrKind → SingleRunResult
  | none, none => .ResponseCorrect
  | some e, none => .ReadResponseError e
  | none, some e => .WriteNumberError e
  | some r, some w => .BothErr r w

/-- How one call of `Client::single_run` ends, as seen by `Client::run`:
either the process panics (an `unwrap` fired) or the run completes with a
`SingleRunResult`. -/
inductive RunExec where
  | panicked
  | completed (r : SingleRunResult)
deriving DecidableEq, Repr

/-- The connection-setup phase of `Client::single_run` (main.rs 236-248):
`bind(..)` and `connect(..)` are each followed by `.unwrap()`, so a failure
of either panics the process; otherwise the run proceeds and completes with
the classification of its body. -/
def single_run (bindRes : Except ErrKind Unit) (connectRes : Except ErrKind Unit)
    (body : SingleRunResult) : RunExec :=
  match bindRes with
  | .error _ => .panicked
  | .ok _ =>
    match connectRes with
    | .error _ => .panicked
    | .ok _ => .completed body

/-- Helper for `Client::run`: iterate the remaining runs starting at run
index `i`; `f i` is how the i-th `single_run` call ends.  Returns the list of
completed run results and whether the process panicked (a panic ends the
whole process, so no later run executes). -/
def runAux : Nat → Nat → (Nat → RunExec) → List SingleRunResult × Bool
  | 0, _, _ => ([], false)
  | t+1, i, f =>
    match f i with
    | .panicked => ([], true)
    | .completed r =>
      let rest := runAux t (i+1) f
      (r :: rest.1, rest.2)

/-- `Client::run` (main.rs 221-231): perform `times` single runs in sequence,
collecting each run's result (the source folds them into a frequency map;
the list here carries the same multiset). -/
def run (times : Nat) (f : Nat → RunExec) : List SingleRunResult × Bool :=
  runAux times 0 f

end Client

/-- Unrolling `Client.runAux` across `k` completed runs up to a panicking
run. -/
theorem clientRunAux_panic :
    ∀ (k t i : Nat) (f : Nat → Client.RunExec),
      (∀ j, j < k → ∃ r, f (i + j) = .completed r) →
      f (i + k) = .panicked →
      ∃ l : List SingleRunResult, Client.runAux (k + (t+1)) i f = (l, true) ∧ l.length = k := by
  intro k
  induction k with
  | zero =>
    intro t i f _ hpanic
    rw [Nat.add_zero] at hpanic
    refine ⟨[], ?_, rfl⟩
    rw [Nat.zero_add, Client.runAux, hpanic]
  | succ k ih =>
    intro t i f hpre hpanic
    obtain ⟨r, hr⟩ := hpre 0 (Nat.succ_pos k)
    rw [Nat.add_zero] at hr
    have hpre2 : ∀ j, j < k → ∃ r, f (i + 1 + j) = .completed r := by
      intro j hj
      have := hpre (j + 1) (by omega)
      rwa [show i + (j + 1) = i + 1 + j by omega] at this
    have hpanic2 : f (i + 1 + k) = .panicked := by
      rwa [show i + (k + 1) = i + 1 + k by omega] at hpanic
    obtain ⟨l, hl, hlen⟩ := ih t (i + 1) f hpre2 hpanic2
    refine ⟨r :: l, ?_, by simp [hlen]⟩
    rw [show k + 1 + (t + 1) = (k + (t + 1)) + 1 by omega, Client.runAux, hr, hl]

/-- C4 counterexample: with two configured repetitions, every run attempting
a connect that fails: the first `unwrap` panic terminates the process — no
run completes, the repetition loop does not continue, contradicting the claim
that the process and remaining repetitions survive a connect/bind failure. -/
theorem clientRun_connect_failure_panics_counterexample :
    Client.run 2 (fun _ =>
        Client.single_run (.ok ()) (.error ErrKind.connectionRefused)
          SingleRunResult.ResponseCorrect)
      = ([], true) := rfl

/-- C4 amended: a connect or bind failure in `Client::single_run` hits an
`.unwrap()` and panics; the run aborts (it is not retried within the run) and
the panic terminates the whole client process, so the runs after the failing
one never execute: exactly the runs before it complete, and the panic flag is
set. -/
theorem clientRun_panic_propagation (times k : Nat) (f : Nat → Client.RunExec)
    (hk : k < times) (hpre : ∀ j, j < k → ∃ r, f j = .completed r)
    (hpanic : f k = .panicked) :
    (∀ (e : ErrKind) (c : Except ErrKind Unit) (b : SingleRunResult),
        Client.single_run (.error e) c b = .panicked)
    ∧ (∀ (e : ErrKind) (b : SingleRunResult),
        Client.single_run (.ok ()) (.error e) b = .panicked)
    ∧ ∃ l : List SingleRunResult, Client.run times f = (l, true) ∧ l.length = k := by
  refine ⟨fun _ _ _ => rfl, fun _ _ => rfl, ?_⟩
  obtain ⟨t, ht⟩ : ∃ t, times = k + (t + 1) := ⟨times - k - 1, by omega⟩
  subst ht
  exact clientRunAux_panic k t 0 f (by simpa using hpre) (by simpa using hpanic)

/-- Witness for the amended C4: three repetitions, the first run completes,
the second panics on connect: exactly one result is collected and the process
dies. -/
theorem clientRun_panic_propagation_witness :
    (∀ (e : ErrKind) (c : Except ErrKind Unit) (b : SingleRunResult),
        Client.single_run (.error e) c b = .panicked)
    ∧ (∀ (e : ErrKind) (b : SingleRunResult),
        Client.single_run (.ok ()) (.error e) b = .panicked)
    ∧ ∃ l : List SingleRunResult,
        Client.run 3 (fun j => if j = 0 then .completed SingleRunResult.ResponseCorrect
          else .panicked) = (l, true) ∧ l.length = 1 :=
  clientRun_panic_propagation 3 1
    (fun j => if j = 0 then .completed SingleRunResult.ResponseCorrect else .panicked)
    (by decide)
    (by intro j hj; interval_cases j; exact ⟨SingleRunResult.ResponseCorrect, rfl⟩)
    rfl

/-- C5: the match in `Client::single_run` (main.rs 306-314) is an exhaustive,
mutually exclusive classification: for every combination of optional read and
write errors exactly one `SingleRunResult` variant is produced, each variant
characterizes its input combination, and `BothErr` carries both error kinds,
read and write, in their respective fields. -/
theorem classify_exhaustive_exclusive :
    ∀ r w : Option ErrKind,
      (Client.classify r w = .ResponseCorrect ↔ r = none ∧ w = none)
      ∧ (∀ e, Client.classify r w = .ReadResponseError e ↔ r = some e ∧ w = none)
      ∧ (∀ e, Client.classify r w = .WriteNumberError e ↔ r = none ∧ w = some e)
      ∧ (∀ a b, Client.classify r w = .BothErr a b ↔ r = some a ∧ w = some b) := by
  intro r w
  rcases r with _ | re <;> rcases w with _ | we <;>
    refine ⟨?_, fun e => ?_, fun e => ?_, fun a b => ?_⟩ <;>
    simp [Client.classify]

namespace Client

/-- `send_numbers_count` (main.rs 272): `1 << 23`. -/
def sendNumbersCount : Nat := 1 <<< 23

/-- The 32-bit value written at loop index `i` of the sender loop
(main.rs 281-290): at the midpoint `send_numbers_count / 2` the loop variable
is replaced by the odd number 23; at every other index the low bit is cleared
(`i &= !1`, with `!1 = 0xFFFFFFFE` on u32). -/
def sendValue (i : Nat) : Nat :=
  if i = sendNumbersCount / 2 then 23 else i &&& 4294967294

/-- Result of the sender loop (main.rs 271-299): the values passed to
`write_all` in order, the remembered `write_err`, and the number of loop
bodies entered (including the final one that breaks). -/
structure WriterOut where
  sent : List Nat
  writeErr : Option ErrKind
  iters : Nat
deriving DecidableEq, Repr

/-- The sender loop `for mut i in 0..send_numbers_count` (main.rs 274-299)
with `t` iterations of budget left and `i` the current index.  Each iteration
first polls the stop flag (`stopPoll i`) and breaks without sending if it is
set; otherwise it writes `sendValue i`, breaking and remembering the error if
the write fails (`wres i`). -/
def writerLoopAux : Nat → Nat → (Nat → Bool) → (Nat → Option ErrKind) → WriterOut
  | 0, _, _, _ => ⟨[], none, 0⟩
  | t+1, i, stopPoll, wres =>
    if stopPoll i then ⟨[], none, 1⟩
    else
      match wres i with
      | some e => ⟨[sendValue i], some e, 1⟩
      | none =>
        let o := writerLoopAux t (i+1) stopPoll wres
        ⟨sendValue i :: o.sent, o.writeErr, o.iters + 1⟩

/-- The full sender loop: budget `send_numbers_count`, starting at index 0. -/
def writerLoop (stopPoll : Nat → Bool) (wres : Nat → Option ErrKind) : WriterOut :=
  writerLoopAux sendNumbersCount 0 stopPoll wres

/-- Events of the response-reader thread (main.rs 258-269): its single
blocking `read_exact` returning, and stores to the shared `stop_sending`
flag. -/
inductive ReaderEvent where
  | readReturn (res : Except ErrKind Nat)
  | store (v : Bool)

def isStore : ReaderEvent → Bool
  | .store _ => true
  | .readReturn _ => false

/-- The response-reader thread's event trace (main.rs 260-268): it reads
exactly 4 bytes (decoding them big-endian on success), then — in both the
success and the error case — performs its single `store(true)` on the shared
flag, and returns the read result. -/
def responseReaderTrace (readRes : Except ErrKind (List Nat)) : List ReaderEvent :=
  match readRes with
  | .ok bytes => [.readReturn (.ok (readU32BE bytes)), .store true]
  | .error e => [.readReturn (.error e), .store true]

/-- Value of the `stop_sending` `AtomicBool` as observed by the writer's poll
at iteration `t`: the flag starts false and the only store the program
contains is the reader's single `store(true)`; `storeBefore = some k` means
that store lands before poll `k` (and hence before every later poll),
`none` that it has not landed before any polled iteration. -/
def stopFlagAt (storeBefore : Option Nat) (t : Nat) : Bool :=
  match storeBefore with
  | none => false
  | some k => decide (k ≤ t)

end Client

/-- The sender loop enters at most as many iterations as its budget. -/
theorem writerLoopAux_iters_le :
    ∀ (t i : Nat) (stopPoll : Nat → Bool) (wres : Nat → Option ErrKind),
      (Client.writerLoopAux t i stopPoll wres).iters ≤ t := by
  intro t
  induction t with
  | zero => intro i _ _; exact Nat.le_refl 0
  | succ t ih =>
    intro i stopPoll wres
    rw [Client.writerLoopAux]
    split
    · exact Nat.succ_le_succ (Nat.zero_le t)
    · match wres i with
      | some e => exact Nat.succ_le_succ (Nat.zero_le t)
      | none => exact Nat.succ_le_succ (ih (i+1) stopPoll wres)

/-- Unrolling `k` clean iterations (stop flag unset, write succeeding) of the
sender loop: they send `sendValue` of the `k` consecutive indices and the
loop continues with the remaining budget. -/
theorem writerLoopAux_clean_segment :
    ∀ (k t i : Nat) (stopPoll : Nat → Bool) (wres : Nat → Option ErrKind),
      (∀ j, j < k → stopPoll (i+j) = false ∧ wres (i+j) = none) →
      Client.writerLoopAux (k+t) i stopPoll wres =
        ⟨(List.range' i k).map Client.sendValue
            ++ (Client.writerLoopAux t (i+k) stopPoll wres).sent,
          (Client.writerLoopAux t (i+k) stopPoll wres).writeErr,
          (Client.writerLoopAux t (i+k) stopPoll wres).iters + k⟩ := by
  intro k
  induction k with
  | zero =>
    intro t i stopPoll wres _
    simp
  | succ k ih =>
    intro t i stopPoll wres hclean
    obtain ⟨hstop, hw⟩ := hclean 0 (Nat.succ_pos k)
    rw [Nat.add_zero] at hstop hw
    have hclean2 : ∀ j, j < k → stopPoll (i+1+j) = false ∧ wres (i+1+j) = none := by
      intro j hj
      have := hclean (j+1) (by omega)
      rwa [show i + (j+1) = i+1+j by omega] at this
    have hrec := ih t (i+1) stopPoll wres hclean2
    rw [show k + 1 + t = (k + t) + 1 by omega, Client.writerLoopAux, if_neg (by simp [hstop]), hw,
      hrec]
    rw [show i + 1 + k = i + (k + 1) by omega]
    rw [List.range'_succ]
    simp
    omega

/-- The values the sender loop passes to `write_all` are always `sendValue`
of an initial segment of the iteration indices. -/
theorem writerLoopAux_sent_shape :
    ∀ (t i : Nat) (stopPoll : Nat → Bool) (wres : Nat → Option ErrKind),
      ∃ m, m ≤ t ∧
        (Client.writerLoopAux t i stopPoll wres).sent
          = (List.range' i m).map Client.sendValue := by
  intro t
  induction t with
  | zero => intro i _ _; exact ⟨0, Nat.le_refl 0, by simp [Client.writerLoopAux]⟩
  | succ t ih =>
    intro i stopPoll wres
    rw [Client.writerLoopAux]
    split
    · exact ⟨0, Nat.zero_le _, by simp⟩
    · match wres i with
      | some e => exact ⟨1, by omega, by simp⟩
      | none =>
        obtain ⟨m, hm, hsent⟩ := ih (i+1) stopPoll wres
        exact ⟨m + 1, by omega, by rw [List.range'_succ]; simp [hsent]⟩

/-- `i & 0xFFFFFFFE` clears the low bit: on u32 values it equals `i - i % 2`. -/
theorem land_mask_clears_low_bit (i : Nat) (h : i < 4294967296) :
    i &&& 4294967294 = i - i % 2 := by
  have h2 : i - i % 2 = 2 * (i / 2) := by omega
  rw [h2]
  apply Nat.eq_of_testBit_eq
  intro j
  rw [Nat.testBit_land]
  cases j with
  | zero =>
    rw [Nat.testBit_zero, Nat.testBit_zero, Nat.testBit_zero]
    have hm : (4294967294 : Nat) % 2 = 0 := by norm_num
    have hv : 2 * (i / 2) % 2 = 0 := by omega
    simp [hm, hv]
  | succ j =>
    rw [Nat.testBit_succ, Nat.testBit_succ, Nat.testBit_succ]
    have hm : (4294967294 : Nat) / 2 = 2 ^ 31 - 1 := by norm_num
    have hq : 2 * (i / 2) / 2 = i / 2 := by omega
    rw [hm, hq, Nat.testBit_two_pow_sub_one]
    by_cases hj : j < 31
    · simp [hj]
    · have hfalse : (i / 2).testBit j = false := by
        apply Nat.testBit_eq_false_of_lt
        calc i / 2 < 2 ^ 31 := by omega
          _ ≤ 2 ^ j := Nat.pow_le_pow_right (by norm_num) (by omega)
      simp [hj, hfalse]

/-- C6: the stop signal is one-shot.  (1) The reader thread's trace contains
exactly one store, of the value `true`, and it comes after its single
blocking read returns (success or error) — so the flag is written at most
once, only false-to-true, only by the reader, only after its read.  (2) The
resulting flag history is monotone: once observed set it is never observed
cleared.  (3) If the writer's poll at iteration `i` is the first event ending
its loop, the writer performs no send at iteration `i` or later and exits
with no write error recorded. -/
theorem stopSignal_one_shot_protocol :
    (∀ r : Except ErrKind (List Nat),
        (Client.responseReaderTrace r).filter Client.isStore = [.store true]
        ∧ ∃ res, Client.responseReaderTrace r = [.readReturn res, .store true])
    ∧ (∀ (sp : Option Nat) (t t2 : Nat), t ≤ t2 →
        Client.stopFlagAt sp t = true → Client.stopFlagAt sp t2 = true)
    ∧ (∀ (sp : Option Nat) (wres : Nat → Option ErrKind) (i : Nat),
        i < Client.sendNumbersCount →
        (∀ j, j < i → Client.stopFlagAt sp j = false ∧ wres j = none) →
        Client.stopFlagAt sp i = true →
        Client.writerLoop (Client.stopFlagAt sp) wres =
          ⟨(List.range' 0 i).map Client.sendValue, none, i + 1⟩) := by
  refine ⟨?_, ?_, ?_⟩
  · intro r
    rcases r with e | bytes
    · exact ⟨rfl, ⟨.error e, rfl⟩⟩
    · exact ⟨rfl, ⟨.ok (readU32BE bytes), rfl⟩⟩
  · intro sp t t2 hle hset
    rcases sp with _ | k
    · simp [Client.stopFlagAt] at hset
    · simp only [Client.stopFlagAt, decide_eq_true_eq] at hset ⊢
      omega
  · intro sp wres i hi hclean hstop
    obtain ⟨d, hd⟩ : ∃ d, Client.sendNumbersCount = i + (d + 1) :=
      ⟨Client.sendNumbersCount - i - 1, by omega⟩
    rw [Client.writerLoop, hd, Nat.add_comm i (d + 1)]
    rw [show d + 1 + i = i + (d + 1) by omega]
    rw [writerLoopAux_clean_segment i (d + 1) 0 (Client.stopFlagAt sp) wres
      (by intro j hj; rw [Nat.zero_add]; exact hclean j hj)]
    rw [Nat.zero_add, Client.writerLoopAux, if_pos hstop]
    simp [Nat.add_comm]

/-- Witness for C6 part (3): the store lands before the very first poll, so
the loop exits after one iteration having sent nothing. -/
theorem stopSignal_one_shot_protocol_witness :
    Client.writerLoop (Client.stopFlagAt (some 0)) (fun _ => none)
      = ⟨(List.range' 0 0).map Client.sendValue, none, 0 + 1⟩ :=
  stopSignal_one_shot_protocol.2.2 (some 0) (fun _ => none) 0 (by decide)
    (fun j hj => absurd hj (Nat.not_lt_zero j)) (by decide)

/-- C7: the sender loop terminates for every behavior of the stop flag and of
the writes: it enters at most `2^23` iterations, exactly `2^23` when the stop
flag is never observed and no write fails, and it exits at iteration `i` as
soon as the stop flag is observed there, or — remembering the error — as soon
as the write at iteration `i` fails. -/
theorem writerLoop_terminates_bounded :
    (∀ (stopPoll : Nat → Bool) (wres : Nat → Option ErrKind),
        (Client.writerLoop stopPoll wres).iters ≤ Client.sendNumbersCount)
    ∧ (∀ (stopPoll : Nat → Bool) (wres : Nat → Option ErrKind),
        (∀ j, stopPoll j = false ∧ wres j = none) →
        (Client.writerLoop stopPoll wres).iters = Client.sendNumbersCount)
    ∧ (∀ (stopPoll : Nat → Bool) (wres : Nat → Option ErrKind) (i : Nat),
        i < Client.sendNumbersCount →
        (∀ j, j < i → stopPoll j = false ∧ wres j = none) →
        stopPoll i = true →
        (Client.writerLoop stopPoll wres).iters = i + 1)
    ∧ (∀ (stopPoll : Nat → Bool) (wres : Nat → Option ErrKind) (i : Nat) (e : ErrKind),
        i < Client.sendNumbersCount →
        (∀ j, j < i → stopPoll j = false ∧ wres j = none) →
        stopPoll i = false → wres i = some e →
        (Client.writerLoop stopPoll wres).iters = i + 1
        ∧ (Client.writerLoop stopPoll wres).writeErr = some e) := by
  refine ⟨?_, ?_, ?_, ?_⟩
  · intro stopPoll wres
    exact writerLoopAux_iters_le Client.sendNumbersCount 0 stopPoll wres
  · intro stopPoll wres hclean
    rw [Client.writerLoop, show Client.sendNumbersCount = Client.sendNumbersCount + 0 by omega,
      writerLoopAux_clean_segment Client.sendNumbersCount 0 0 stopPoll wres
        (fun j _ => hclean (0 + j))]
    simp [Client.writerLoopAux]
  · intro stopPoll wres i hi hclean hstop
    obtain ⟨d, hd⟩ : ∃ d, Client.sendNumbersCount = i + (d + 1) :=
      ⟨Client.sendNumbersCount - i - 1, by omega⟩
    rw [Client.writerLoop, hd, show i + (d + 1) = i + (d + 1) by rfl,
      writerLoopAux_clean_segment i (d + 1) 0 stopPoll wres
        (by intro j hj; rw [Nat.zero_add]; exact hclean j hj)]
    rw [Nat.zero_add, Client.writerLoopAux, if_pos hstop]
    simp [Nat.add_comm]
  · intro stopPoll wres i e hi hclean hstop hw
    obtain ⟨d, hd⟩ : ∃ d, Client.sendNumbersCount = i + (d + 1) :=
      ⟨Client.sendNumbersCount - i - 1, by omega⟩
    rw [Client.writerLoop, hd,
      writerLoopAux_clean_segment i (d + 1) 0 stopPoll wres
        (by intro j hj; rw [Nat.zero_add]; exact hclean j hj)]
    rw [Nat.zero_add, Client.writerLoopAux, if_neg (by simp [hstop]), hw]
    constructor
    · simp [Nat.add_comm]
    · simp

/-- Witness for C7: the stop flag turns on at iteration 1, so the loop enters
exactly two iterations. -/
theorem writerLoop_terminates_bounded_witness :
    (Client.writerLoop (fun j => decide (1 ≤ j)) (fun _ => none)).iters = 1 + 1 :=
  writerLoop_terminates_bounded.2.2.1 (fun j => decide (1 ≤ j)) (fun _ => none) 1
    (by decide) (by decide) (by decide)

/-- C8: every value the sender loop writes is `sendValue` of its iteration
index; at the midpoint index `2^22 = send_numbers_count / 2` the value is the
odd number 23, and at every other index it is the index with its low bit
cleared — an even number.  Hence no odd value other than the single 23 is
ever sent. -/
theorem sentValues_even_except_midpoint :
    (∀ (stopPoll : Nat → Bool) (wres : Nat → Option ErrKind),
        ∃ m, m ≤ Client.sendNumbersCount ∧
          (Client.writerLoop stopPoll wres).sent
            = (List.range' 0 m).map Client.sendValue)
    ∧ (Client.sendNumbersCount / 2 = 2 ^ 22
        ∧ Client.sendValue (Client.sendNumbersCount / 2) = 23 ∧ (23 : Nat) % 2 = 1)
    ∧ (∀ i, i < Client.sendNumbersCount → i ≠ Client.sendNumbersCount / 2 →
        Client.sendValue i = i - i % 2 ∧ Client.sendValue i % 2 = 0) := by
  refine ⟨?_, ⟨by decide, by simp [Client.sendValue], by decide⟩, ?_⟩
  · intro stopPoll wres
    exact writerLoopAux_sent_shape Client.sendNumbersCount 0 stopPoll wres
  · intro i hi hne
    have hlt : i < 4294967296 := by
      have : Client.sendNumbersCount = 8388608 := by decide
      omega
    have hval : Client.sendValue i = i - i % 2 := by
      rw [Client.sendValue, if_neg hne]
      exact land_mask_clears_low_bit i hlt
    exact ⟨hval, by omega⟩

/-- Witness for C8 at the concrete indices 5 (even, low bit cleared) and the
midpoint (the injected 23). -/
theorem sentValues_even_except_midpoint_witness :
    Client.sendValue 5 = 5 - 5 % 2 ∧ Client.sendValue 5 % 2 = 0 :=
  sentValues_even_except_midpoint.2.2 5 (by decide) (by decide)

end TcpTeardown
